import Mathlib

/-!
# Verification of the cargo-deny data layer (`src/lib.rs`)

A shallow embedding of the crate-registry core: dependency records with
their (name, version) ordering, registry construction (sorting plus the
identifier-to-index map), resolution-graph normalization, the
license-evidence iterator, the generic binary search wrapper, and the
32-bit content hash.  Rust `u32` arithmetic is modelled on `Nat` with
explicit `% 2 ^ 32`; file-system reads are passed in explicitly as a
`Path → Option (List ...)` oracle; fallible operations return sum types.
-/

namespace CargoDeny

/-! ## Paths and directory entries

`PathBuf` is modelled as its list of components; `PathBuf::join` is list
append and `PathBuf::pop` drops the final component.  One entry of
`std::fs::read_dir` carries the file name and whether it is a regular
file. -/

abbrev Path := List String

structure DirEntry where
  name : String
  isFile : Bool
deriving DecidableEq, Repr

/-! ## Semantic versions (the `semver` crate's precedence order)

`semver::Version` as used by the record ordering: major/minor/patch
numbers plus the pre-release identifier list.  An identifier is numeric
or alphanumeric; numeric identifiers order below alphanumeric ones. -/

inductive SvIdent where
  | numeric (n : Nat)
  | alphanum (s : String)
deriving DecidableEq, Repr

structure Version where
  major : Nat
  minor : Nat
  patch : Nat
  pre : List SvIdent
deriving DecidableEq, Repr

def Version.new (major minor patch : Nat) : Version :=
  ⟨major, minor, patch, []⟩

/-! ## Comparator toolkit

Rust's `Ord::cmp` chains have the shape
`match a.f.cmp(&b.f) { Equal => rest, o => o }`; `cLex` is that shape and
`prjCmp` is comparison of a projected field.  `ordCmp` is the comparator
of a linear order (Rust's `cmp` on integers and strings). -/

def ordCmp {β : Type} [LinearOrder β] (a b : β) : Ordering :=
  if a < b then .lt else if a = b then .eq else .gt

def cLex {α : Type} (c₁ c₂ : α → α → Ordering) (a b : α) : Ordering :=
  match c₁ a b with
  | .eq => c₂ a b
  | o => o

def prjCmp {α β : Type} (f : α → β) (c : β → β → Ordering) (a b : α) : Ordering :=
  c (f a) (f b)


/-! ## The `semver` precedence comparator

`SvIdent.cmp` is the derived order of the identifier enum (numeric below
alphanumeric), `identsCmp` the lexicographic `Vec` comparison, and
`preCmp` the pre-release rule: an empty pre-release list has *higher*
precedence than a non-empty one.  `Version.cmp` chains
major/minor/patch/pre exactly as the crate's `Ord` impl does. -/

def SvIdent.cmp : SvIdent → SvIdent → Ordering
  | .numeric n, .numeric m => ordCmp n m
  | .numeric _, .alphanum _ => .lt
  | .alphanum _, .numeric _ => .gt
  | .alphanum s, .alphanum t => ordCmp s t

def identsCmp : List SvIdent → List SvIdent → Ordering
  | [], [] => .eq
  | [], _ :: _ => .lt
  | _ :: _, [] => .gt
  | a :: as, b :: bs =>
    match SvIdent.cmp a b with
    | .eq => identsCmp as bs
    | o => o

def preCmp (p q : List SvIdent) : Ordering :=
  match p, q with
  | [], [] => .eq
  | [], _ :: _ => .gt
  | _ :: _, [] => .lt
  | _ :: _, _ :: _ => identsCmp p q

def Version.cmp : Version → Version → Ordering :=
  cLex (prjCmp Version.major ordCmp)
    (cLex (prjCmp Version.minor ordCmp)
      (cLex (prjCmp Version.patch ordCmp)
        (prjCmp Version.pre preCmp)))

/-! ## Declared license field and license evidence

The `licenses` module itself is not part of the embedded source file;
only its `LicenseField` / `LicenseInfo` types are used here. -/

/-- Modelled from the spec: the `licenses` module's `LicenseField` (its
definition is outside the embedded `lib.rs`).  Three states: absent,
decomposed into one or more atomic identifiers, or unparseable with the
opaque original string retained. -/
inductive LicenseField where
  | absent
  | ids (l : List String)
  | unparseable (raw : String)
deriving DecidableEq, Repr

/-- Modelled from the spec: iterating the field yields its atomic
identifiers in internal order (nothing when absent; the retained opaque
string when unparseable). -/
def LicenseField.iter : LicenseField → List String
  | .absent => []
  | .ids l => l
  | .unparseable raw => [raw]

/-- Modelled from the spec: `LicenseField::new` decomposes a declared
license expression into its constituent atomic identifiers, in order.
Only the disjunctive form (identifiers joined by `OR`) is exercised by
the properties below. -/
def LicenseField.new (s : String) : LicenseField :=
  .ids (s.splitOn " OR ")

/-- Modelled from the spec: `LicenseField::default()` is the absent
state (no license declared). -/
def LicenseField.defaultField : LicenseField := .absent

/-- Modelled from the spec: the `licenses` module's `LicenseInfo` — one
piece of license evidence, tagged by its source. -/
inductive LicenseInfo where
  | metadata (id : String)
  | inferredLicenseFile (path : Path)
  | explicitLicenseFile (path : Path)
deriving DecidableEq, Repr

/-! ## Dependency records (`CrateDetails`) -/

/-- `cargo_metadata::Dependency`: a dependency requirement descriptor.
Only the name participates in the behavior under verification (the
per-record dependency list is sorted by it). -/
structure Dependency where
  name : String
  req : String
deriving DecidableEq, Repr

/-- `cargo_metadata::Package`: one entry of the raw package list coming
from the external metadata source. -/
structure Package where
  name : String
  id : String
  version : Version
  authors : List String
  repository : Option String
  description : Option String
  manifest_path : Path
  license : Option String
  license_file : Option Path
  dependencies : List Dependency
deriving DecidableEq, Repr

structure CrateDetails where
  name : String
  id : String
  version : Version
  authors : List String
  repository : Option String
  description : Option String
  root : Option Path
  license : LicenseField
  license_file : Option Path
  deps : List Dependency
deriving DecidableEq, Repr

/-- `impl Default for CrateDetails`. -/
instance : Inhabited CrateDetails :=
  ⟨{ name := ""
     id := ""
     version := Version.new 0 1 0
     authors := []
     repository := none
     description := none
     root := none
     license := LicenseField.defaultField
     license_file := none
     deps := [] }⟩

/-- `impl Ord for CrateDetails`: name first, then semantic version. -/
def CrateDetails.cmp : CrateDetails → CrateDetails → Ordering :=
  cLex (prjCmp CrateDetails.name ordCmp) (prjCmp CrateDetails.version Version.cmp)

/-- `impl PartialEq for CrateDetails`: equality looks only at name and
version. -/
def CrateDetails.eqv (a b : CrateDetails) : Prop :=
  a.name = b.name ∧ a.version = b.version

instance : DecidableRel CrateDetails.eqv := fun a b =>
  inferInstanceAs (Decidable (a.name = b.name ∧ a.version = b.version))

/-- The `≤` relation induced by `CrateDetails::cmp`, as used by
`par_sort`. -/
def crateLE (a b : CrateDetails) : Prop := CrateDetails.cmp a b ≠ .gt

instance : DecidableRel crateLE := fun a b =>
  inferInstanceAs (Decidable (CrateDetails.cmp a b ≠ .gt))

/-- The per-record dependency-list order of `CrateDetails::new`
(`deps.par_sort_by(|a, b| a.name.cmp(&b.name))`). -/
def depLE (a b : Dependency) : Prop := ordCmp a.name b.name ≠ .gt

instance : DecidableRel depLE := fun a b =>
  inferInstanceAs (Decidable (ordCmp a.name b.name ≠ .gt))

/-- `CrateDetails::new`: copy the scalar fields, convert the declared
license, compute the root directory by dropping the manifest path's
file name, and sort the dependency list by name. -/
def CrateDetails.new (package : Package) : CrateDetails :=
  { name := package.name
    id := package.id
    version := package.version
    authors := package.authors
    repository := package.repository
    license := (package.license.map LicenseField.new).getD LicenseField.defaultField
    license_file := package.license_file
    description := package.description
    root := some package.manifest_path.dropLast
    deps := List.insertionSort depLE package.dependencies }

/-! ## License evidence resolution -/

/-- Rust `str::starts_with`, expressed over the character lists. -/
def strStartsWith (s p : String) : Bool := p.data.isPrefixOf s.data

/-- `find_license_files`: scan a directory (when present) for regular
files whose name starts with `LICENSE`.  The outcome of
`std::fs::read_dir` is passed in as `readDir`; `none` models a failed
read and each entry is itself an `Option` (Rust's `e.ok()`).  Any
failure yields no paths. -/
def find_license_files (dir : Option Path)
    (readDir : Path → Option (List (Option DirEntry))) : List Path :=
  match dir with
  | none => []
  | some d =>
    match readDir d with
    | none => []
    | some entries =>
      entries.filterMap fun e =>
        e.bind fun e =>
          if e.isFile ∧ strStartsWith e.name "LICENSE" then some (d ++ [e.name]) else none

/-- `CrateDetails::licenses`: declared metadata evidence, then inferred
on-disk files (skipping the explicitly declared path), then the
explicit license file. -/
def CrateDetails.licenses (c : CrateDetails)
    (readDir : Path → Option (List (Option DirEntry))) : List LicenseInfo :=
  let root := c.root
  let explicit := c.license_file.bind fun lf => root.map fun r => r ++ lf
  (c.license.iter.map LicenseInfo.metadata)
    ++ (((find_license_files root readDir).filterMap fun found_path =>
          if explicit = some found_path then none
          else some (LicenseInfo.inferredLicenseFile found_path))
        ++ (c.license_file.toList.filterMap fun elf =>
            root.map fun r => LicenseInfo.explicitLicenseFile (r ++ elf)))

/-! ## Registry and resolution graph -/

/-- `cargo_metadata::Node`: one node of the resolution graph — a package
identifier plus the identifiers of its dependency edges. -/
structure Node where
  id : String
  dependencies : List String
deriving DecidableEq, Repr

/-- `cargo_metadata::Resolve`: the raw resolution graph. -/
structure Resolve where
  nodes : List Node
deriving DecidableEq, Repr

/-- The node order of `resolved.nodes.par_sort_by(|a, b| a.id.cmp(&b.id))`:
by identifier (an opaque string with its derived order). -/
def nodeLE (a b : Node) : Prop := a.id ≤ b.id

instance : DecidableRel nodeLE := fun a b =>
  inferInstanceAs (Decidable (a.id ≤ b.id))

structure Crates where
  crates : List CrateDetails
  crate_map : List (String × Nat)
  resolved : Resolve
deriving DecidableEq, Repr

/-- `Crates::crate_by_id`: look the identifier up in the map and index
into the record sequence. -/
def Crates.crate_by_id (c : Crates) (id : String) : Option CrateDetails :=
  match c.crate_map.find? fun p => p.1 == id with
  | some p => c.crates.get? p.2
  | none => none

/-- `Crates::iter` iterates the record sequence itself. -/
def Crates.iter (c : Crates) : List CrateDetails := c.crates

/-- `crate_infos.par_sort()` over the records built from the raw
packages (`par_sort` is a comparison sort into non-decreasing order). -/
def buildCrates (packages : List Package) : List CrateDetails :=
  List.insertionSort crateLE (packages.map CrateDetails.new)

/-- The identifier-to-position map built by one enumerate pass over the
sorted record sequence (`HashMap` modelled as an association list). -/
def buildMap (crates : List CrateDetails) : List (String × Nat) :=
  crates.enum.map fun p => (p.2.id, p.1)

/-- Normalization of the resolution graph: sort the node list by
identifier, then sort each node's dependency-edge list. -/
def normalizeResolve (r : Resolve) : Resolve :=
  ⟨(List.insertionSort nodeLE r.nodes).map fun n =>
    { n with dependencies := List.insertionSort (· ≤ ·) n.dependencies }⟩

/-- The registry assembled by `get_all_crates` once metadata is in
hand. -/
def buildRegistry (packages : List Package) (res : Resolve) : Crates :=
  { crates := buildCrates packages
    crate_map := buildMap (buildCrates packages)
    resolved := normalizeResolve res }

/-! ## The construction entry point -/

/-- The fetched `cargo_metadata::Metadata`: the package list plus an
optional resolution graph. -/
structure Metadata where
  packages : List Package
  resolve : Option Resolve
deriving DecidableEq, Repr

/-- The outcome of the external `cargo metadata` invocation, passed in
explicitly. -/
inductive FetchResult where
  | ok (md : Metadata)
  | err (msg : String)
deriving DecidableEq, Repr

/-- How a call to `get_all_crates` can end.  `panicked` models the
`unwrap()` panic — an abort that is *not* a returned error. -/
inductive GetAllCratesResult where
  | ok (c : Crates)
  | err (msg : String)
  | panicked
deriving DecidableEq, Repr

/-- `get_all_crates`: propagate a metadata-fetch failure as an error;
otherwise build and sort the records and the map, then `unwrap()` the
resolution graph (panicking when it is absent) and normalize it. -/
def get_all_crates (fetch : FetchResult) : GetAllCratesResult :=
  match fetch with
  | .err e => .err ("failed to fetch metadata: " ++ e)
  | .ok metadata =>
    let crate_infos := List.insertionSort crateLE (metadata.packages.map CrateDetails.new)
    let map := buildMap crate_infos
    match metadata.resolve with
    | none => .panicked
    | some resolved =>
      .ok { crates := crate_infos
            crate_map := map
            resolved := normalizeResolve resolved }

/-! ## Ordering utilities -/

/-- The loop of Rust `slice::binary_search_by` on the index interval
`[left, right)`: `Except.ok` is `Ok(found_index)`, `Except.error` is
`Err(insertion_index)`. -/
def bsLoop {α : Type} (c : α → Ordering) (s : List α) (left right : Nat) :
    Except Nat Nat :=
  if _h : left < right then
    match s.get? (left + (right - left) / 2) with
    | none => .error left
    | some x =>
      match c x with
      | .lt => bsLoop c s (left + (right - left) / 2 + 1) right
      | .gt => bsLoop c s left (left + (right - left) / 2)
      | .eq => .ok (left + (right - left) / 2)
  else
    .error left
termination_by right - left
decreasing_by
  · omega
  · omega

/-- `binary_search`: search a slice with the query's order, comparing
each element through its borrowed key
(`s.binary_search_by(|i| i.borrow().cmp(query))`). -/
def binary_search {α β : Type} [LinearOrder β] (key : α → β) (s : List α)
    (query : β) : Except Nat Nat :=
  bsLoop (fun i => ordCmp (key i) query) s 0 s.length

/-- The contract of one `binary_search_by` outcome: a found index holds
an element comparing equal; a missed search returns the insertion
position — every element below it compares less, every element from it
on compares greater. -/
def bsPost {α : Type} (c : α → Ordering) (s : List α) : Except Nat Nat → Prop
  | .ok i => ∃ h : i < s.length, c (s.get ⟨i, h⟩) = .eq
  | .error j => j ≤ s.length ∧
      (∀ (k : Nat) (hk : k < s.length), k < j → c (s.get ⟨k, hk⟩) = .lt) ∧
      (∀ (k : Nat) (hk : k < s.length), j ≤ k → c (s.get ⟨k, hk⟩) = .gt)

/-- `contains`: linear scan by equality of the borrowed key. -/
def listContains {α β : Type} [DecidableEq β] (key : α → β) (s : List α)
    (query : β) : Bool :=
  s.any fun i => key i == query

/-! ## The 32-bit content hash

`hash` feeds the bytes to `twox_hash::XxHash32` with its default seed 0
and truncates `finish()` to `u32`.  The xxHash32 algorithm is embedded
below over `Nat` with explicit reduction modulo `2 ^ 32`. -/

def M32 : Nat := 2 ^ 32

def XXP1 : Nat := 2654435761
def XXP2 : Nat := 2246822519
def XXP3 : Nat := 3266489917
def XXP4 : Nat := 668265263
def XXP5 : Nat := 374761393

/-- 32-bit left rotation. -/
def rotl32 (x r : Nat) : Nat :=
  (((x % M32) <<< r) % M32) ||| ((x % M32) >>> (32 - r))

/-- A little-endian 32-bit lane from four bytes. -/
def le32 (b0 b1 b2 b3 : Nat) : Nat :=
  b0 % 256 + (b1 % 256) * 256 + (b2 % 256) * 65536 + (b3 % 256) * 16777216

/-- One accumulator round over a 4-byte lane. -/
def xxRound (acc lane : Nat) : Nat :=
  rotl32 ((acc + lane * XXP2) % M32) 13 * XXP1 % M32

/-- Consume 16-byte stripes through the four accumulators, returning the
final accumulators and the unconsumed tail. -/
def xxStripes (v1 v2 v3 v4 : Nat) :
    List Nat → (Nat × Nat × Nat × Nat) × List Nat
  | b0 :: b1 :: b2 :: b3 :: b4 :: b5 :: b6 :: b7 ::
      b8 :: b9 :: b10 :: b11 :: b12 :: b13 :: b14 :: b15 :: rest =>
    xxStripes (xxRound v1 (le32 b0 b1 b2 b3)) (xxRound v2 (le32 b4 b5 b6 b7))
      (xxRound v3 (le32 b8 b9 b10 b11)) (xxRound v4 (le32 b12 b13 b14 b15)) rest
  | l => ((v1, v2, v3, v4), l)

/-- Fold remaining 4-byte chunks into the digest. -/
def xxTail4 (h : Nat) : List Nat → Nat × List Nat
  | b0 :: b1 :: b2 :: b3 :: rest =>
    xxTail4 (rotl32 ((h + le32 b0 b1 b2 b3 * XXP3) % M32) 17 * XXP4 % M32) rest
  | l => (h, l)

/-- Fold remaining single bytes into the digest. -/
def xxTail1 (h : Nat) : List Nat → Nat
  | b :: rest => xxTail1 (rotl32 ((h + b % 256 * XXP5) % M32) 11 * XXP1 % M32) rest
  | [] => h

/-- The final avalanche mix. -/
def xxAvalanche (h : Nat) : Nat :=
  let h1 := (h % M32) ^^^ ((h % M32) >>> 15)
  let h2 := h1 * XXP2 % M32
  let h3 := h2 ^^^ (h2 >>> 13)
  let h4 := h3 * XXP3 % M32
  h4 ^^^ (h4 >>> 16)

/-- xxHash32 of a byte sequence with the given seed. -/
def xxh32 (seed : Nat) (data : List Nat) : Nat :=
  let len := data.length
  let hr :
      Nat × List Nat :=
    if 16 ≤ len then
      let sr := xxStripes ((seed + XXP1 + XXP2) % M32) ((seed + XXP2) % M32)
        (seed % M32) ((seed + M32 - XXP1 % M32) % M32) data
      ((rotl32 sr.1.1 1 + rotl32 sr.1.2.1 7 + rotl32 sr.1.2.2.1 12 +
        rotl32 sr.1.2.2.2 18) % M32, sr.2)
    else
      ((seed + XXP5) % M32, data)
  let h0 := (hr.1 + len) % M32
  let t4 := xxTail4 h0 hr.2
  xxAvalanche (xxTail1 t4.1 t4.2)

/-- `hash(data)`: `XxHash32::default()` (seed 0), write the bytes,
`finish() as u32`. -/
def hash (data : List Nat) : Nat :=
  xxh32 0 data

/-! ## Shared concrete fixtures used by the witnesses -/

def exVer (major minor patch : Nat) : Version := Version.new major minor patch

def exPkg : Package :=
  { name := "widget"
    id := "widget 1.2.3 (registry+https://example)"
    version := exVer 1 2 3
    authors := ["someone"]
    repository := none
    description := none
    manifest_path := ["home", "widget", "Cargo.toml"]
    license := some "MIT OR Apache-2.0"
    license_file := none
    dependencies := [] }

def exPkgB : Package :=
  { exPkg with
    name := "zeta"
    id := "zeta 0.1.0 (registry+https://example)"
    version := exVer 0 1 0 }

/-- ASCII bytes of a string, for concrete hash inputs. -/
def strBytes (s : String) : List Nat := s.data.map Char.toNat

/-- A bare raw package descriptor (no declared license), for concrete
registry fixtures. -/
def exRaw (name id : String) (version : Version) : Package :=
  { name := name
    id := id
    version := version
    authors := []
    repository := none
    description := none
    manifest_path := ["root", "Cargo.toml"]
    license := none
    license_file := none
    dependencies := [] }

/-- Is an evidence item an explicit-license-file item? -/
def isExplicitInfo : LicenseInfo → Bool
  | .explicitLicenseFile _ => true
  | _ => false

/-- A concrete dependency record differing from `Default` only in name,
identifier and version. -/
def exCrate (name id : String) (version : Version) : CrateDetails :=
  { (default : CrateDetails) with name := name, id := id, version := version }

/-- A concrete record with a declared license, an explicit license-file
reference and a root directory. -/
def exLicCrate : CrateDetails :=
  { (default : CrateDetails) with
    name := "widget"
    license := .ids ["MIT", "Apache-2.0"]
    license_file := some ["LICENSE-MIT"]
    root := some ["crate-root"] }

/-- A concrete directory oracle: every directory holds the two regular
files `LICENSE-MIT` and `LICENSE-APACHE`. -/
def exReadDir : Path → Option (List (Option DirEntry)) :=
  fun _ => some [some ⟨"LICENSE-MIT", true⟩, some ⟨"LICENSE-APACHE", true⟩]


/-! ## Lemma development -/

section OrdCmp

variable {β : Type} [LinearOrder β]

theorem ordCmp_eq_lt_iff {a b : β} : ordCmp a b = .lt ↔ a < b := by
  unfold ordCmp
  split
  · simp [*]
  · split <;> simp [*]

theorem ordCmp_eq_eq_iff {a b : β} : ordCmp a b = .eq ↔ a = b := by
  unfold ordCmp
  split
  · rename_i h
    simp [ne_of_lt h]
  · split <;> simp [*]

theorem ordCmp_eq_gt_iff {a b : β} : ordCmp a b = .gt ↔ b < a := by
  unfold ordCmp
  split
  · rename_i h
    simp [asymm h, ne_of_gt h]
  · split
    · simp [*, lt_irrefl]
    · rename_i h₁ h₂
      simp [lt_of_le_of_ne (le_of_not_lt h₁) (Ne.symm h₂)]

theorem ordCmp_swap (a b : β) : ordCmp a b = (ordCmp b a).swap := by
  rcases lt_trichotomy a b with h | h | h
  · rw [ordCmp_eq_lt_iff.2 h, ordCmp_eq_gt_iff.2 h]
    rfl
  · rw [ordCmp_eq_eq_iff.2 h, ordCmp_eq_eq_iff.2 h.symm]
    rfl
  · rw [ordCmp_eq_gt_iff.2 h, ordCmp_eq_lt_iff.2 h]
    rfl

end OrdCmp

section CLex

variable {α : Type} {c₁ c₂ : α → α → Ordering}

theorem cLex_swap (h₁ : ∀ a b, c₁ a b = (c₁ b a).swap)
    (h₂ : ∀ a b, c₂ a b = (c₂ b a).swap) (a b : α) :
    cLex c₁ c₂ a b = (cLex c₁ c₂ b a).swap := by
  unfold cLex
  rw [h₁ a b, h₂ a b]
  cases c₁ b a <;> rfl

theorem cLex_eq_eq_iff (a b : α) :
    cLex c₁ c₂ a b = .eq ↔ c₁ a b = .eq ∧ c₂ a b = .eq := by
  unfold cLex
  cases h : c₁ a b <;> simp [h]

theorem cLex_le_trans
    (hlt : ∀ a b d, c₁ a b = .lt → c₁ b d = .lt → c₁ a d = .lt)
    (hcong : ∀ a b, c₁ a b = .eq → ∀ x, c₁ a x = c₁ b x ∧ c₁ x a = c₁ x b)
    (h₂ : ∀ a b d, c₂ a b ≠ .gt → c₂ b d ≠ .gt → c₂ a d ≠ .gt)
    (a b d : α) (hab : cLex c₁ c₂ a b ≠ .gt) (hbd : cLex c₁ c₂ b d ≠ .gt) :
    cLex c₁ c₂ a d ≠ .gt := by
  unfold cLex at *
  cases h1 : c₁ a b with
  | gt => rw [h1] at hab; exact absurd rfl hab
  | lt =>
    cases h2 : c₁ b d with
    | gt => rw [h2] at hbd; exact absurd rfl hbd
    | lt => rw [hlt a b d h1 h2]; intro h; cases h
    | eq => rw [← (hcong b d h2 a).2, h1]; intro h; cases h
  | eq =>
    cases h2 : c₁ b d with
    | gt => rw [h2] at hbd; exact absurd rfl hbd
    | lt => rw [(hcong a b h1 d).1, h2]; intro h; cases h
    | eq =>
      rw [(hcong a b h1 d).1, h2]
      rw [h1] at hab
      rw [h2] at hbd
      exact h₂ a b d hab hbd

end CLex

section PrjCmp

variable {α β : Type} [LinearOrder β] (f : α → β)

theorem prjOrd_swap (a b : α) : prjCmp f ordCmp a b = (prjCmp f ordCmp b a).swap :=
  ordCmp_swap (f a) (f b)

theorem prjOrd_lt_trans (a b d : α) (h₁ : prjCmp f ordCmp a b = .lt)
    (h₂ : prjCmp f ordCmp b d = .lt) : prjCmp f ordCmp a d = .lt := by
  unfold prjCmp at *
  exact ordCmp_eq_lt_iff.2 (lt_trans (ordCmp_eq_lt_iff.1 h₁) (ordCmp_eq_lt_iff.1 h₂))

theorem prjOrd_eq_congr (a b : α) (h : prjCmp f ordCmp a b = .eq) (x : α) :
    prjCmp f ordCmp a x = prjCmp f ordCmp b x ∧
      prjCmp f ordCmp x a = prjCmp f ordCmp x b := by
  unfold prjCmp at *
  rw [ordCmp_eq_eq_iff.1 h]
  exact ⟨rfl, rfl⟩

theorem prjOrd_le_trans (a b d : α) (h₁ : prjCmp f ordCmp a b ≠ .gt)
    (h₂ : prjCmp f ordCmp b d ≠ .gt) : prjCmp f ordCmp a d ≠ .gt := by
  unfold prjCmp at *
  intro h
  have hab : f a ≤ f b := le_of_not_lt (fun hc => h₁ (ordCmp_eq_gt_iff.2 hc))
  have hbd : f b ≤ f d := le_of_not_lt (fun hc => h₂ (ordCmp_eq_gt_iff.2 hc))
  exact absurd (ordCmp_eq_gt_iff.1 h) (not_lt_of_le (le_trans hab hbd))

end PrjCmp

theorem svIdent_cmp_swap (a b : SvIdent) : SvIdent.cmp a b = (SvIdent.cmp b a).swap := by
  cases a <;> cases b <;>
    simp only [SvIdent.cmp, Ordering.swap] <;>
    first
    | rfl
    | exact ordCmp_swap _ _

theorem svIdent_cmp_eq_iff {a b : SvIdent} : SvIdent.cmp a b = .eq ↔ a = b := by
  cases a <;> cases b <;> simp [SvIdent.cmp, ordCmp_eq_eq_iff]

theorem svIdent_cmp_lt_trans {a b d : SvIdent} (h₁ : SvIdent.cmp a b = .lt)
    (h₂ : SvIdent.cmp b d = .lt) : SvIdent.cmp a d = .lt := by
  cases a <;> cases b <;> cases d <;>
    simp only [SvIdent.cmp, ordCmp_eq_lt_iff] at h₁ h₂ ⊢ <;>
    first
    | rfl
    | exact lt_trans h₁ h₂
    | exact Ordering.noConfusion h₁
    | exact Ordering.noConfusion h₂

theorem identsCmp_swap (p q : List SvIdent) : identsCmp p q = (identsCmp q p).swap := by
  induction p generalizing q with
  | nil => cases q <;> rfl
  | cons a as ih =>
    cases q with
    | nil => rfl
    | cons b bs =>
      simp only [identsCmp]
      rw [svIdent_cmp_swap a b]
      cases SvIdent.cmp b a <;> simp [Ordering.swap, ih]

theorem identsCmp_eq_iff {p q : List SvIdent} : identsCmp p q = .eq ↔ p = q := by
  induction p generalizing q with
  | nil => cases q <;> simp [identsCmp]
  | cons a as ih =>
    cases q with
    | nil => simp [identsCmp]
    | cons b bs =>
      cases h : SvIdent.cmp a b with
      | eq =>
        obtain rfl : a = b := svIdent_cmp_eq_iff.1 h
        simp [identsCmp, h, ih]
      | lt =>
        have hne : a ≠ b := fun he => by
          rw [he, svIdent_cmp_eq_iff.2 rfl] at h
          cases h
        simp [identsCmp, h, hne]
      | gt =>
        have hne : a ≠ b := fun he => by
          rw [he, svIdent_cmp_eq_iff.2 rfl] at h
          cases h
        simp [identsCmp, h, hne]

theorem identsCmp_le_trans (p q r : List SvIdent) (h₁ : identsCmp p q ≠ .gt)
    (h₂ : identsCmp q r ≠ .gt) : identsCmp p r ≠ .gt := by
  induction p generalizing q r with
  | nil => cases r <;> simp [identsCmp]
  | cons a as ih =>
    cases q with
    | nil => simp [identsCmp] at h₁
    | cons b bs =>
      cases r with
      | nil => simp [identsCmp] at h₂
      | cons d ds =>
        cases hab : SvIdent.cmp a b with
        | gt => simp [identsCmp, hab] at h₁
        | lt =>
          cases hbd : SvIdent.cmp b d with
          | gt => simp [identsCmp, hbd] at h₂
          | lt => simp [identsCmp, svIdent_cmp_lt_trans hab hbd]
          | eq =>
            obtain rfl : b = d := svIdent_cmp_eq_iff.1 hbd
            simp [identsCmp, hab]
        | eq =>
          obtain rfl : a = b := svIdent_cmp_eq_iff.1 hab
          simp only [identsCmp, hab] at h₁
          cases hbd : SvIdent.cmp a d with
          | gt => simp [identsCmp, hbd] at h₂
          | lt => simp [identsCmp, hbd]
          | eq =>
            simp only [identsCmp, hbd] at h₂
            simp only [identsCmp, hbd]
            exact ih bs ds h₁ h₂


theorem preCmp_swap (p q : List SvIdent) : preCmp p q = (preCmp q p).swap := by
  cases p <;> cases q <;> simp only [preCmp, Ordering.swap] <;>
    first
    | rfl
    | exact identsCmp_swap _ _

theorem preCmp_eq_iff {p q : List SvIdent} : preCmp p q = .eq ↔ p = q := by
  cases p <;> cases q <;> simp [preCmp, identsCmp_eq_iff]

theorem preCmp_le_trans (p q r : List SvIdent) (h₁ : preCmp p q ≠ .gt)
    (h₂ : preCmp q r ≠ .gt) : preCmp p r ≠ .gt := by
  cases p with
  | nil =>
    cases q with
    | nil =>
      cases r with
      | nil => simp [preCmp]
      | cons z zs => simp [preCmp] at h₂
    | cons y ys =>
      simp [preCmp] at h₁
  | cons x xs =>
    cases r with
    | nil =>
      cases q with
      | nil => simp [preCmp]
      | cons y ys => simp [preCmp]
    | cons z zs =>
      cases q with
      | nil => simp [preCmp] at h₂
      | cons y ys =>
        simp only [preCmp] at h₁ h₂ ⊢
        exact identsCmp_le_trans _ _ _ h₁ h₂

theorem version_cmp_swap (v w : Version) : Version.cmp v w = (Version.cmp w v).swap := by
  unfold Version.cmp
  refine cLex_swap (prjOrd_swap _) (cLex_swap (prjOrd_swap _) (cLex_swap (prjOrd_swap _) ?_)) v w
  intro a b
  exact preCmp_swap a.pre b.pre

theorem version_cmp_eq_iff {v w : Version} : Version.cmp v w = .eq ↔ v = w := by
  unfold Version.cmp
  rw [cLex_eq_eq_iff, cLex_eq_eq_iff, cLex_eq_eq_iff]
  unfold prjCmp
  rw [ordCmp_eq_eq_iff, ordCmp_eq_eq_iff, ordCmp_eq_eq_iff, preCmp_eq_iff]
  cases v
  cases w
  simp [Version.mk.injEq]

theorem version_cmp_le_trans (v w x : Version) (h₁ : Version.cmp v w ≠ .gt)
    (h₂ : Version.cmp w x ≠ .gt) : Version.cmp v x ≠ .gt := by
  unfold Version.cmp at *
  refine cLex_le_trans (prjOrd_lt_trans _) (prjOrd_eq_congr _) ?_ v w x h₁ h₂
  intro a b d
  refine cLex_le_trans (prjOrd_lt_trans _) (prjOrd_eq_congr _) ?_ a b d
  intro a b d
  refine cLex_le_trans (prjOrd_lt_trans _) (prjOrd_eq_congr _) ?_ a b d
  intro a b d
  exact preCmp_le_trans a.pre b.pre d.pre

/-! ## Properties of the record order -/

theorem crate_cmp_swap (a b : CrateDetails) :
    CrateDetails.cmp a b = (CrateDetails.cmp b a).swap := by
  unfold CrateDetails.cmp
  refine cLex_swap (prjOrd_swap _) ?_ a b
  intro x y
  exact version_cmp_swap x.version y.version

theorem crate_cmp_eq_iff {a b : CrateDetails} :
    CrateDetails.cmp a b = .eq ↔ a.name = b.name ∧ a.version = b.version := by
  unfold CrateDetails.cmp
  rw [cLex_eq_eq_iff]
  unfold prjCmp
  rw [ordCmp_eq_eq_iff, version_cmp_eq_iff]

theorem crate_le_trans (a b d : CrateDetails) (h₁ : crateLE a b) (h₂ : crateLE b d) :
    crateLE a d :=
  cLex_le_trans (prjOrd_lt_trans _) (prjOrd_eq_congr _)
    (fun x y z => version_cmp_le_trans x.version y.version z.version) a b d h₁ h₂

theorem crate_le_total (a b : CrateDetails) : crateLE a b ∨ crateLE b a := by
  unfold crateLE
  cases h : CrateDetails.cmp a b with
  | lt => left; simp [h]
  | eq => left; simp [h]
  | gt =>
    right
    rw [crate_cmp_swap b a, h]
    simp [Ordering.swap]

instance : IsTotal CrateDetails crateLE := ⟨crate_le_total⟩

instance : IsTrans CrateDetails crateLE := ⟨crate_le_trans⟩

instance : IsAntisymm CrateDetails (fun a b => CrateDetails.cmp a b = .lt) := by
  constructor
  intro a b h₁ h₂
  rw [crate_cmp_swap a b, h₂] at h₁
  cases h₁

instance : IsTotal Node nodeLE := ⟨fun a b => le_total a.id b.id⟩

instance : IsTrans Node nodeLE := ⟨fun _ _ _ h₁ h₂ => le_trans h₁ h₂⟩

instance : IsAntisymm Node (fun a b => a.id < b.id) := by
  constructor
  intro a b h₁ h₂
  exact absurd h₂ (not_lt_of_lt h₁)

/-! ## Hash range lemmas -/

theorem xorShift_lt {x n k : Nat} (hx : x < 2 ^ n) : x ^^^ (x >>> k) < 2 ^ n := by
  refine Nat.xor_lt_two_pow hx (lt_of_le_of_lt ?_ hx)
  rw [Nat.shiftRight_eq_div_pow]
  exact Nat.div_le_self _ _

theorem xxAvalanche_lt (x : Nat) : xxAvalanche x < 2 ^ 32 := by
  unfold xxAvalanche
  exact xorShift_lt (Nat.mod_lt _ (by norm_num [M32]))

/-- The implementation matches the reference xxHash32 test vectors
(empty input, short inputs, and one input long enough to exercise the
16-byte stripe loop). -/
theorem xxh32_reference_vectors :
    hash [] = 0x02CC5D05 ∧ hash (strBytes "a") = 0x550D7456 ∧
      hash (strBytes "abc") = 0x32D153FF ∧
      hash (strBytes "Nobody inspects the spammish repetition") = 0xE2293B2F := by
  refine ⟨by decide, by decide, by decide, by decide⟩

/-! ## Claim theorems -/

/-- C9: for every byte sequence, `hash` is deterministic — equal inputs
hash to the same value — and its result always fits in 32 bits. -/
theorem c9_hash_deterministic_and_32bit (data : List Nat) :
    (∀ d : List Nat, data = d → hash data = hash d) ∧ hash data < 2 ^ 32 := by
  constructor
  · intro d h
    rw [h]
  · exact xxAvalanche_lt _

/-- Witness for C9 at a concrete input. -/
theorem c9_witness : hash [78] = hash [78] ∧ hash [78] < 2 ^ 32 :=
  ⟨(c9_hash_deterministic_and_32bit [78]).1 [78] rfl,
    (c9_hash_deterministic_and_32bit [78]).2⟩

/-- C5: when the fetched metadata lacks a resolution graph,
`get_all_crates` does *not* surface an explicit returned error — it
panics (the `unwrap()`), producing no registry; a metadata-fetch failure,
by contrast, is returned as an error. -/
theorem c5_missing_resolve_panics_instead_of_error (packages : List Package) :
    get_all_crates (.ok ⟨packages, none⟩) = .panicked ∧
      (∀ msg, get_all_crates (.ok ⟨packages, none⟩) ≠ .err msg) ∧
      (∀ e, get_all_crates (.err e) = .err ("failed to fetch metadata: " ++ e)) := by
  refine ⟨rfl, fun msg h => GetAllCratesResult.noConfusion h, fun e => rfl⟩

/-- C10: `CrateDetails::new` always sets the root to the manifest path
with its final component removed; hence every record of a built registry
has a present root, while the `Default` record is rootless. -/
theorem c10_new_root_always_present :
    (∀ p : Package, (CrateDetails.new p).root = some p.manifest_path.dropLast) ∧
    (∀ (packages : List Package) (res : Resolve) (c : CrateDetails),
        c ∈ (buildRegistry packages res).crates → (c.root).isSome = true) ∧
    ((default : CrateDetails).root = none) := by
  refine ⟨fun p => rfl, ?_, rfl⟩
  intro packages res c hc
  have hm : c ∈ packages.map CrateDetails.new := by
    simpa [buildRegistry, buildCrates, List.mem_insertionSort] using hc
  obtain ⟨p, _, rfl⟩ := List.mem_map.1 hm
  rfl

/-- Witness for C10: the registry built from a singleton package list. -/
theorem c10_witness : ((CrateDetails.new exPkg).root).isSome = true :=
  c10_new_root_always_present.2.1 [exPkg] ⟨[]⟩ (CrateDetails.new exPkg)
    (List.mem_singleton_self (CrateDetails.new exPkg))

/-- Concrete string order facts route through the character lists. -/
theorem str_lt_of_data {a b : String} (h : a.data < b.data) : a < b :=
  String.lt_iff_toList_lt.2 h

theorem crateLE_of_name_lt {a b : CrateDetails} (h : a.name < b.name) : crateLE a b := by
  unfold crateLE CrateDetails.cmp cLex prjCmp
  rw [ordCmp_eq_lt_iff.2 h]
  simp

/-- C6: record equality and ordering are determined by (name, version)
alone — equality holds whenever name and version agree, regardless of the
other fields; the comparison agrees with equality, is antisymmetric under
swapping, total and transitive; name is the primary key and the semantic
version the secondary key. -/
theorem c6_eq_and_order_by_name_version_only (a b c : CrateDetails) :
    ((a.name = b.name ∧ a.version = b.version) → CrateDetails.eqv a b) ∧
    (CrateDetails.eqv a b ↔ CrateDetails.cmp a b = .eq) ∧
    (CrateDetails.cmp a b = (CrateDetails.cmp b a).swap) ∧
    (crateLE a b ∨ crateLE b a) ∧
    (crateLE a b → crateLE b c → crateLE a c) ∧
    (a.name < b.name → CrateDetails.cmp a b = .lt) ∧
    (a.name = b.name → CrateDetails.cmp a b = Version.cmp a.version b.version) := by
  refine ⟨fun h => h, Iff.symm crate_cmp_eq_iff, crate_cmp_swap a b, crate_le_total a b,
    crate_le_trans a b c, ?_, ?_⟩
  · intro h
    unfold CrateDetails.cmp cLex prjCmp
    rw [ordCmp_eq_lt_iff.2 h]
  · intro h
    unfold CrateDetails.cmp cLex prjCmp
    rw [ordCmp_eq_eq_iff.2 h]

theorem crateLE_of_eqv {a b : CrateDetails} (h₁ : a.name = b.name)
    (h₂ : a.version = b.version) : crateLE a b := by
  unfold crateLE
  rw [crate_cmp_eq_iff.2 ⟨h₁, h₂⟩]
  simp

/-! ## Registry construction lemmas -/

theorem buildCrates_perm (packages : List Package) :
    (buildCrates packages).Perm (packages.map CrateDetails.new) :=
  List.perm_insertionSort _ _

theorem buildCrates_sorted (packages : List Package) :
    List.Sorted crateLE (buildCrates packages) :=
  List.sorted_insertionSort _ _

theorem crateKeys_map_new (l : List Package) :
    ((l.map CrateDetails.new).map fun c => (c.name, c.version)) =
      l.map fun p => (p.name, p.version) := by
  rw [List.map_map]
  rfl

theorem sorted_strict_of_nodup_keys {s : List CrateDetails}
    (hs : List.Sorted crateLE s)
    (hn : (s.map fun c => (c.name, c.version)).Nodup) :
    List.Sorted (fun a b => CrateDetails.cmp a b = .lt) s := by
  have hne : List.Pairwise
      (fun a b : CrateDetails => ¬(a.name = b.name ∧ a.version = b.version)) s :=
    (List.pairwise_map.1 hn).imp fun h hc => h (by rw [hc.1, hc.2])
  refine (List.Pairwise.and hs hne).imp ?_
  intro a b hab
  cases hcm : CrateDetails.cmp a b with
  | lt => rfl
  | eq => exact absurd (crate_cmp_eq_iff.1 hcm) hab.2
  | gt => exact absurd hcm hab.1

theorem buildCrates_eq_of_perm {l₁ l₂ : List Package} (hp : l₁.Perm l₂)
    (hn : (l₁.map fun p => (p.name, p.version)).Nodup) :
    buildCrates l₁ = buildCrates l₂ := by
  have hperm : (buildCrates l₁).Perm (buildCrates l₂) :=
    (buildCrates_perm l₁).trans ((hp.map _).trans (buildCrates_perm l₂).symm)
  have hn₁ : ((buildCrates l₁).map fun c => (c.name, c.version)).Nodup := by
    refine (((buildCrates_perm l₁).map _).nodup_iff).2 ?_
    rw [crateKeys_map_new]
    exact hn
  have hn₂ : ((buildCrates l₂).map fun c => (c.name, c.version)).Nodup :=
    ((hperm.map _).nodup_iff).1 hn₁
  exact List.eq_of_perm_of_sorted hperm
    (sorted_strict_of_nodup_keys (buildCrates_sorted l₁) hn₁)
    (sorted_strict_of_nodup_keys (buildCrates_sorted l₂) hn₂)

/-- C3 (amended): registry construction always yields a sequence in
which every adjacent pair is `≤` under the record order; and when no two
raw entries share the same (name, version) key, any permutation of the
input produces the identical record sequence. -/
theorem c3_registry_sorted_and_deterministic (packages : List Package) :
    List.Chain' crateLE (buildCrates packages) ∧
      ∀ packages₂ : List Package, packages.Perm packages₂ →
        ((packages.map fun p => (p.name, p.version)).Nodup) →
        buildCrates packages = buildCrates packages₂ := by
  exact ⟨(buildCrates_sorted packages).chain', fun _ hp hn => buildCrates_eq_of_perm hp hn⟩

/-- C3 counterexample: two raw entries with equal (name, version) but
distinct identifiers.  The two input orders are permutations of each
other, yet registry construction returns different record sequences (the
stable sort preserves the arrival order of records that compare equal),
so the iteration order is *not* the same for every permutation of the
input. -/
theorem c3_counterexample :
    ([exRaw "same" "idA" (exVer 1 0 0), exRaw "same" "idB" (exVer 1 0 0)]).Perm
        [exRaw "same" "idB" (exVer 1 0 0), exRaw "same" "idA" (exVer 1 0 0)] ∧
      buildCrates [exRaw "same" "idA" (exVer 1 0 0), exRaw "same" "idB" (exVer 1 0 0)] ≠
        buildCrates [exRaw "same" "idB" (exVer 1 0 0), exRaw "same" "idA" (exVer 1 0 0)] := by
  constructor
  · exact List.Perm.swap _ _ _
  · have e₁ : buildCrates [exRaw "same" "idA" (exVer 1 0 0), exRaw "same" "idB" (exVer 1 0 0)] =
        [CrateDetails.new (exRaw "same" "idA" (exVer 1 0 0)),
          CrateDetails.new (exRaw "same" "idB" (exVer 1 0 0))] := by
      unfold buildCrates
      simp only [List.map, List.insertionSort, List.orderedInsert]
      rw [if_pos (crateLE_of_eqv
        (a := CrateDetails.new (exRaw "same" "idA" (exVer 1 0 0)))
        (b := CrateDetails.new (exRaw "same" "idB" (exVer 1 0 0))) rfl rfl)]
    have e₂ : buildCrates [exRaw "same" "idB" (exVer 1 0 0), exRaw "same" "idA" (exVer 1 0 0)] =
        [CrateDetails.new (exRaw "same" "idB" (exVer 1 0 0)),
          CrateDetails.new (exRaw "same" "idA" (exVer 1 0 0))] := by
      unfold buildCrates
      simp only [List.map, List.insertionSort, List.orderedInsert]
      rw [if_pos (crateLE_of_eqv
        (a := CrateDetails.new (exRaw "same" "idB" (exVer 1 0 0)))
        (b := CrateDetails.new (exRaw "same" "idA" (exVer 1 0 0))) rfl rfl)]
    rw [e₁, e₂]
    intro h
    injection h with h1 _
    exact absurd (congrArg CrateDetails.id h1) (by decide)

/-- Witness for C3: determinism discharged on a concrete two-package
input with distinct (name, version) keys. -/
theorem c3_witness :
    buildCrates [exRaw "beta" "idX" (exVer 1 0 0), exRaw "alpha" "idY" (exVer 2 0 0)] =
      buildCrates [exRaw "alpha" "idY" (exVer 2 0 0), exRaw "beta" "idX" (exVer 1 0 0)] :=
  (c3_registry_sorted_and_deterministic
      [exRaw "beta" "idX" (exVer 1 0 0), exRaw "alpha" "idY" (exVer 2 0 0)]).2
    [exRaw "alpha" "idY" (exVer 2 0 0), exRaw "beta" "idX" (exVer 1 0 0)]
    (List.Perm.swap _ _ _) (by decide)

/-! ## Lookup-map lemmas -/

theorem find?_cons_pos {α : Type} (p : α → Bool) (a : α) (l : List α) (h : p a = true) :
    (a :: l).find? p = some a := by
  simp [List.find?, h]

theorem find?_cons_neg {α : Type} (p : α → Bool) (a : α) (l : List α) (h : p a = false) :
    (a :: l).find? p = l.find? p := by
  simp [List.find?, h]

theorem findMap_enumFrom_present :
    ∀ (l : List CrateDetails) (n i : Nat) (h : i < l.length),
      (l.map CrateDetails.id).Nodup →
      (((l.enumFrom n).map fun p => (p.2.id, p.1)).find? fun p =>
          p.1 == (l.get ⟨i, h⟩).id) = some ((l.get ⟨i, h⟩).id, n + i) := by
  intro l
  induction l with
  | nil =>
    intro n i h
    exact absurd h (Nat.not_lt_zero i)
  | cons c t ih =>
    intro n i h hn
    obtain ⟨hc, ht⟩ := List.nodup_cons.1 hn
    cases i with
    | zero =>
      simp only [List.enumFrom, List.map, List.get]
      exact find?_cons_pos _ _ _ (by simp)
    | succ j =>
      have hj : j < t.length := Nat.lt_of_succ_lt_succ h
      have hget : (c :: t).get ⟨j + 1, h⟩ = t.get ⟨j, hj⟩ := rfl
      have hne : (c.id == ((c :: t).get ⟨j + 1, h⟩).id) = false := by
        rw [hget]
        refine beq_eq_false_iff_ne.2 fun he => ?_
        exact hc (he ▸ List.mem_map_of_mem CrateDetails.id (t.get_mem j hj))
      simp only [List.enumFrom, List.map]
      rw [find?_cons_neg (fun q => q.1 == ((c :: t).get ⟨j + 1, h⟩).id) (c.id, n)
        ((t.enumFrom (n + 1)).map fun p => (p.2.id, p.1)) hne, hget]
      rw [ih (n + 1) j hj ht]
      have harith : n + 1 + j = n + (j + 1) := by omega
      rw [harith]

theorem findMap_enumFrom_absent :
    ∀ (l : List CrateDetails) (n : Nat) (id : String), id ∉ l.map CrateDetails.id →
      (((l.enumFrom n).map fun p => (p.2.id, p.1)).find? fun p => p.1 == id) = none := by
  intro l
  induction l with
  | nil => intro n id _; rfl
  | cons c t ih =>
    intro n id hid
    simp only [List.map, List.mem_cons, not_or] at hid
    simp only [List.enumFrom, List.map]
    rw [find?_cons_neg (fun q => q.1 == id) (c.id, n)
      ((t.enumFrom (n + 1)).map fun p => (p.2.id, p.1))
      (beq_eq_false_iff_ne.2 fun he => hid.1 he.symm)]
    exact ih (n + 1) id hid.2

theorem buildCrates_ids (l : List Package) :
    ((buildCrates l).map CrateDetails.id).Perm (l.map Package.id) := by
  have h := (buildCrates_perm l).map CrateDetails.id
  rwa [List.map_map, show CrateDetails.id ∘ CrateDetails.new = Package.id from rfl] at h

/-- C4: with pairwise-distinct input identifiers, looking up any built
record's identifier returns exactly that record, and looking up an
identifier absent from the input returns `none`. -/
theorem c4_lookup_consistency (packages : List Package) (res : Resolve)
    (hn : (packages.map Package.id).Nodup) :
    (∀ c ∈ (buildRegistry packages res).crates,
        (buildRegistry packages res).crate_by_id c.id = some c) ∧
    (∀ id : String, id ∉ packages.map Package.id →
        (buildRegistry packages res).crate_by_id id = none) := by
  have hnodup : ((buildCrates packages).map CrateDetails.id).Nodup :=
    ((buildCrates_ids packages).nodup_iff).2 hn
  have hmap : (buildRegistry packages res).crate_map =
      ((buildCrates packages).enumFrom 0).map fun p => (p.2.id, p.1) := rfl
  constructor
  · intro c hc
    have hc' : c ∈ buildCrates packages := hc
    obtain ⟨⟨i, hi⟩, hget⟩ := List.mem_iff_get.1 hc'
    unfold Crates.crate_by_id
    rw [hmap, ← hget, findMap_enumFrom_present (buildCrates packages) 0 i hi hnodup]
    show (buildRegistry packages res).crates.get? (0 + i) =
      some ((buildCrates packages).get ⟨i, hi⟩)
    rw [Nat.zero_add]
    exact List.get?_eq_get hi
  · intro id hid
    have hid' : id ∉ (buildCrates packages).map CrateDetails.id := fun hmem =>
      hid ((buildCrates_ids packages).mem_iff.1 hmem)
    unfold Crates.crate_by_id
    rw [hmap, findMap_enumFrom_absent (buildCrates packages) 0 id hid']

/-- Witness for C4: an identifier absent from a concrete input maps to
`none`. -/
theorem c4_witness :
    (buildRegistry [exRaw "a" "id1" (exVer 1 0 0), exRaw "b" "id2" (exVer 1 0 0)]
        ⟨[]⟩).crate_by_id "absent-id" = none :=
  (c4_lookup_consistency [exRaw "a" "id1" (exVer 1 0 0), exRaw "b" "id2" (exVer 1 0 0)]
      ⟨[]⟩ (by decide)).2 "absent-id" (by decide)

/-! ## Graph normalization lemmas -/

theorem sortNodes_eq_of_perm {l₁ l₂ : List Node} (hp : l₁.Perm l₂)
    (hn : (l₁.map Node.id).Nodup) :
    List.insertionSort nodeLE l₁ = List.insertionSort nodeLE l₂ := by
  have hperm : (List.insertionSort nodeLE l₁).Perm (List.insertionSort nodeLE l₂) :=
    (List.perm_insertionSort _ _).trans (hp.trans (List.perm_insertionSort _ _).symm)
  have hn₁ : ((List.insertionSort nodeLE l₁).map Node.id).Nodup :=
    (((List.perm_insertionSort nodeLE l₁).map _).nodup_iff).2 hn
  have hn₂ : ((List.insertionSort nodeLE l₂).map Node.id).Nodup :=
    ((hperm.map _).nodup_iff).1 hn₁
  have hs : ∀ (l : List Node), ((List.insertionSort nodeLE l).map Node.id).Nodup →
      List.Sorted (fun a b : Node => a.id < b.id) (List.insertionSort nodeLE l) := by
    intro l hnd
    refine (List.Pairwise.and (List.sorted_insertionSort nodeLE l)
      (List.pairwise_map.1 hnd)).imp ?_
    intro a b hab
    exact lt_of_le_of_ne hab.1 hab.2
  exact List.eq_of_perm_of_sorted hperm (hs l₁ hn₁) (hs l₂ hn₂)

/-- C2: normalization sorts the node sequence ascending by identifier
and each node's edge list by the target identifier's order, so two raw
graphs that are permutations of each other (one node per identifier)
normalize to identical output. -/
theorem c2_normalize_sorted_and_deterministic (r : Resolve) :
    List.Sorted nodeLE (normalizeResolve r).nodes ∧
    (∀ n ∈ (normalizeResolve r).nodes, List.Sorted (· ≤ ·) n.dependencies) ∧
    (∀ r₂ : Resolve, r.nodes.Perm r₂.nodes → (r.nodes.map Node.id).Nodup →
        normalizeResolve r = normalizeResolve r₂) := by
  refine ⟨?_, ?_, ?_⟩
  · unfold normalizeResolve
    refine List.pairwise_map.2 ((List.sorted_insertionSort nodeLE r.nodes).imp ?_)
    intro a b hab
    exact hab
  · intro n hn
    unfold normalizeResolve at hn
    obtain ⟨m, _, rfl⟩ := List.mem_map.1 hn
    exact List.sorted_insertionSort _ _
  · intro r₂ hp hn
    unfold normalizeResolve
    rw [sortNodes_eq_of_perm hp hn]

/-- Witness for C2: the same two-node graph fed in both orders. -/
theorem c2_witness :
    normalizeResolve ⟨[⟨"idB", ["z", "a"]⟩, ⟨"idA", []⟩]⟩ =
      normalizeResolve ⟨[⟨"idA", []⟩, ⟨"idB", ["z", "a"]⟩]⟩ :=
  (c2_normalize_sorted_and_deterministic ⟨[⟨"idB", ["z", "a"]⟩, ⟨"idA", []⟩]⟩).2.2
    ⟨[⟨"idA", []⟩, ⟨"idB", ["z", "a"]⟩]⟩ (List.Perm.swap _ _ _) (by decide)

/-! ## License-evidence lemmas -/

theorem filter_explicit_metadata (l : List String) :
    ((l.map LicenseInfo.metadata).filter isExplicitInfo) = [] := by
  induction l with
  | nil => rfl
  | cons a t ih => simp [isExplicitInfo, ih]

theorem filter_explicit_inferred (paths : List Path) (ex : Option Path) :
    ((paths.filterMap fun fp =>
        if ex = some fp then none else some (LicenseInfo.inferredLicenseFile fp)).filter
      isExplicitInfo) = [] := by
  induction paths with
  | nil => rfl
  | cons p t ih =>
    simp only [List.filterMap]
    by_cases h : ex = some p
    · rw [if_pos h]
      exact ih
    · rw [if_neg h]
      simp [isExplicitInfo, ih]

/-- C8: license-evidence resolution is total — a record with no root
yields exactly the declared evidence even when a license-file reference
is set, and a failing directory read behaves identically to an empty
directory; `find_license_files` returns no paths in either failure
mode. -/
theorem c8_inference_failures_degrade_silently :
    (∀ (c : CrateDetails) (readDir : Path → Option (List (Option DirEntry))),
        c.root = none → c.licenses readDir = c.license.iter.map LicenseInfo.metadata) ∧
    (∀ (c : CrateDetails) (readDir : Path → Option (List (Option DirEntry))) (r : Path),
        c.root = some r → readDir r = none →
        c.licenses readDir = c.licenses fun _ => some []) ∧
    (∀ readDir, find_license_files none readDir = []) ∧
    (∀ r readDir, readDir r = none → find_license_files (some r) readDir = []) := by
  refine ⟨?_, ?_, fun _ => rfl, ?_⟩
  · intro c readDir h
    simp [CrateDetails.licenses, h, find_license_files]
  · intro c readDir r hroot hread
    simp [CrateDetails.licenses, hroot, find_license_files, hread]
  · intro r readDir h
    simp [find_license_files, h]

/-- Witness for C8: the rootless `Default` record with a failing
directory oracle yields no evidence. -/
theorem c8_witness :
    (default : CrateDetails).licenses (fun _ => none) =
      (default : CrateDetails).license.iter.map LicenseInfo.metadata :=
  c8_inference_failures_degrade_silently.1 default (fun _ => none) rfl

/-- C1: with declared license `MIT OR Apache-2.0`, explicit reference
`LICENSE-MIT`, and a root directory holding the regular files
`LICENSE-MIT` and `LICENSE-APACHE` (in either directory order), the
evidence sequence is exactly declared(MIT), declared(Apache-2.0),
inferred(root/LICENSE-APACHE), explicit(root/LICENSE-MIT); and whenever
both root and license-file reference are present, exactly one explicit
item is emitted. -/
theorem c1_evidence_order_and_dedup :
    (∀ (c : CrateDetails) (readDir : Path → Option (List (Option DirEntry))) (r : Path),
        c.license = .ids ["MIT", "Apache-2.0"] →
        c.license_file = some ["LICENSE-MIT"] →
        c.root = some r →
        (readDir r = some [some ⟨"LICENSE-MIT", true⟩, some ⟨"LICENSE-APACHE", true⟩] ∨
          readDir r = some [some ⟨"LICENSE-APACHE", true⟩, some ⟨"LICENSE-MIT", true⟩]) →
        c.licenses readDir =
          [.metadata "MIT", .metadata "Apache-2.0",
            .inferredLicenseFile (r ++ ["LICENSE-APACHE"]),
            .explicitLicenseFile (r ++ ["LICENSE-MIT"])]) ∧
    (∀ (c : CrateDetails) (readDir : Path → Option (List (Option DirEntry)))
        (r : Path) (lf : Path), c.root = some r → c.license_file = some lf →
        (c.licenses readDir).filter isExplicitInfo =
          [LicenseInfo.explicitLicenseFile (r ++ lf)]) := by
  constructor
  · intro c readDir r hlic hlf hroot hrd
    have hmit : strStartsWith "LICENSE-MIT" "LICENSE" = true := by decide
    have hap : strStartsWith "LICENSE-APACHE" "LICENSE" = true := by decide
    have hne : ¬(r ++ ["LICENSE-MIT"] = r ++ ["LICENSE-APACHE"]) := by simp
    rcases hrd with h | h <;>
      simp [CrateDetails.licenses, hlic, hlf, hroot, LicenseField.iter,
        find_license_files, h, List.filterMap, hmit, hap, hne]
  · intro c readDir r lf hroot hlf
    simp only [CrateDetails.licenses, hroot, hlf]
    rw [List.filter_append, List.filter_append]
    rw [filter_explicit_metadata]
    simp [filter_explicit_inferred, isExplicitInfo]
    intro a x _ _ heq
    rw [← heq]

/-- Witness for C1: the concrete record and directory listing. -/
theorem c1_witness :
    exLicCrate.licenses exReadDir =
      [.metadata "MIT", .metadata "Apache-2.0",
        .inferredLicenseFile ["crate-root", "LICENSE-APACHE"],
        .explicitLicenseFile ["crate-root", "LICENSE-MIT"]] :=
  c1_evidence_order_and_dedup.1 exLicCrate exReadDir ["crate-root"] rfl rfl rfl (Or.inl rfl)

/-- Witness for C6: transitivity discharged at three concrete records. -/
theorem c6_witness :
    crateLE (exCrate "alpha" "id1" (exVer 1 0 0)) (exCrate "gamma" "id3" (exVer 0 1 0)) :=
  (c6_eq_and_order_by_name_version_only (exCrate "alpha" "id1" (exVer 1 0 0))
      (exCrate "beta" "id2" (exVer 2 0 0)) (exCrate "gamma" "id3" (exVer 0 1 0))).2.2.2.2.1
    (crateLE_of_name_lt (str_lt_of_data (by decide)))
    (crateLE_of_name_lt (str_lt_of_data (by decide)))


/-! ## Binary search lemmas -/

theorem bsLoop_stop {α : Type} (c : α → Ordering) (s : List α) {left right : Nat}
    (h : ¬left < right) : bsLoop c s left right = .error left := by
  unfold bsLoop
  rw [dif_neg h]

theorem bsLoop_step {α : Type} (c : α → Ordering) (s : List α) {left right : Nat}
    (h : left < right) {x : α} (hx : s.get? (left + (right - left) / 2) = some x) :
    bsLoop c s left right =
      match c x with
      | .lt => bsLoop c s (left + (right - left) / 2 + 1) right
      | .gt => bsLoop c s left (left + (right - left) / 2)
      | .eq => .ok (left + (right - left) / 2) := by
  conv_lhs => rw [bsLoop]
  rw [dif_pos h, hx]

theorem bsLoop_spec {α : Type} (c : α → Ordering) (s : List α) :
    ∀ (fuel left right : Nat), right - left ≤ fuel → left ≤ right → right ≤ s.length →
      (∀ (i j : Nat) (hi : i < s.length) (hj : j < s.length), i ≤ j →
        ((c (s.get ⟨j, hj⟩) = .lt → c (s.get ⟨i, hi⟩) = .lt) ∧
          (c (s.get ⟨i, hi⟩) = .gt → c (s.get ⟨j, hj⟩) = .gt))) →
      (∀ (k : Nat) (hk : k < s.length), k < left → c (s.get ⟨k, hk⟩) = .lt) →
      (∀ (k : Nat) (hk : k < s.length), right ≤ k → c (s.get ⟨k, hk⟩) = .gt) →
      bsPost c s (bsLoop c s left right) := by
  intro fuel
  induction fuel with
  | zero =>
    intro left right hfuel hlr hrs hmono hlo hhi
    rw [bsLoop_stop c s (by omega)]
    simp only [bsPost]
    exact ⟨by omega, hlo, fun k hk hle => hhi k hk (by omega)⟩
  | succ fuel ih =>
    intro left right hfuel hlr hrs hmono hlo hhi
    by_cases hlt : left < right
    · have hmidlt : left + (right - left) / 2 < right := by omega
      have hmids : left + (right - left) / 2 < s.length := lt_of_lt_of_le hmidlt hrs
      rw [bsLoop_step c s hlt (List.get?_eq_get hmids)]
      cases hc : c (s.get ⟨left + (right - left) / 2, hmids⟩) with
      | eq =>
        show bsPost c s (.ok (left + (right - left) / 2))
        simp only [bsPost]
        exact ⟨hmids, hc⟩
      | lt =>
        show bsPost c s (bsLoop c s (left + (right - left) / 2 + 1) right)
        refine ih (left + (right - left) / 2 + 1) right (by omega) (by omega) hrs hmono ?_ hhi
        intro k hk hklt
        rcases Nat.lt_or_ge k left with hkl | hkl
        · exact hlo k hk hkl
        · exact (hmono k (left + (right - left) / 2) hk hmids (by omega)).1 hc
      | gt =>
        show bsPost c s (bsLoop c s left (left + (right - left) / 2))
        refine ih left (left + (right - left) / 2) (by omega) (by omega)
          (le_of_lt hmids) hmono hlo ?_
        intro k hk hkge
        exact (hmono (left + (right - left) / 2) k hmids hk hkge).2 hc
    · rw [bsLoop_stop c s hlt]
      simp only [bsPost]
      exact ⟨by omega, hlo, fun k hk hle => hhi k hk (by omega)⟩

/-- C7: on a list sorted by the key order, searching for the key of any
element finds a position holding an element with that key; searching for
a key equal to no element returns the insertion position — everything
before it is below the query and everything from it on is above, so
inserting there keeps the list sorted. -/
theorem c7_binary_search_spec (α β : Type) [LinearOrder β] (key : α → β) (s : List α)
    (hs : List.Sorted (fun a b => key a ≤ key b) s) :
    (∀ e ∈ s, ∃ (i : Nat) (h : i < s.length),
        binary_search key s (key e) = .ok i ∧ key (s.get ⟨i, h⟩) = key e) ∧
    (∀ q : β, (∀ x ∈ s, key x ≠ q) → ∃ j : Nat,
        binary_search key s q = .error j ∧ j ≤ s.length ∧
        (∀ (i : Nat) (h : i < s.length), i < j → key (s.get ⟨i, h⟩) < q) ∧
        (∀ (i : Nat) (h : i < s.length), j ≤ i → q < key (s.get ⟨i, h⟩))) := by
  have hmono : ∀ (q : β) (i j : Nat) (hi : i < s.length) (hj : j < s.length), i ≤ j →
      ((ordCmp (key (s.get ⟨j, hj⟩)) q = .lt → ordCmp (key (s.get ⟨i, hi⟩)) q = .lt) ∧
        (ordCmp (key (s.get ⟨i, hi⟩)) q = .gt → ordCmp (key (s.get ⟨j, hj⟩)) q = .gt)) := by
    intro q i j hi hj hij
    have hkey : key (s.get ⟨i, hi⟩) ≤ key (s.get ⟨j, hj⟩) := by
      rcases Nat.lt_or_ge i j with h | h
      · exact hs.rel_get_of_lt h
      · have hij' : i = j := by omega
        subst hij'
        exact le_refl _
    constructor
    · intro h
      exact ordCmp_eq_lt_iff.2 (lt_of_le_of_lt hkey (ordCmp_eq_lt_iff.1 h))
    · intro h
      exact ordCmp_eq_gt_iff.2 (lt_of_lt_of_le (ordCmp_eq_gt_iff.1 h) hkey)
  have hspec : ∀ q : β,
      bsPost (fun x => ordCmp (key x) q) s
        (bsLoop (fun x => ordCmp (key x) q) s 0 s.length) := by
    intro q
    refine bsLoop_spec (fun x => ordCmp (key x) q) s s.length 0 s.length (by omega)
      (Nat.zero_le _) (le_refl _) (hmono q) ?_ ?_
    · intro k hk hklt
      exact absurd hklt (Nat.not_lt_zero k)
    · intro k hk hge
      exact absurd hk (not_lt_of_le hge)
  constructor
  · intro e he
    obtain ⟨⟨idx, hidx⟩, hget⟩ := List.mem_iff_get.1 he
    have h := hspec (key e)
    cases hres : bsLoop (fun x => ordCmp (key x) (key e)) s 0 s.length with
    | ok i =>
      rw [hres] at h
      simp only [bsPost] at h
      obtain ⟨hlen, hceq⟩ := h
      exact ⟨i, hlen, hres, ordCmp_eq_eq_iff.1 hceq⟩
    | error j =>
      rw [hres] at h
      simp only [bsPost] at h
      obtain ⟨_, hbelow, habove⟩ := h
      have hself : ordCmp (key (s.get ⟨idx, hidx⟩)) (key e) = .eq :=
        ordCmp_eq_eq_iff.2 (by rw [hget])
      rcases Nat.lt_or_ge idx j with hj | hj
      · rw [hbelow idx hidx hj] at hself
        cases hself
      · rw [habove idx hidx hj] at hself
        cases hself
  · intro q hq
    have h := hspec q
    cases hres : bsLoop (fun x => ordCmp (key x) q) s 0 s.length with
    | ok i =>
      rw [hres] at h
      simp only [bsPost] at h
      obtain ⟨hlen, hceq⟩ := h
      exact absurd (ordCmp_eq_eq_iff.1 hceq) (hq _ (s.get_mem i hlen))
    | error j =>
      rw [hres] at h
      simp only [bsPost] at h
      obtain ⟨hjle, hbelow, habove⟩ := h
      refine ⟨j, hres, hjle, ?_, ?_⟩
      · intro i hi hij
        exact ordCmp_eq_lt_iff.1 (hbelow i hi hij)
      · intro i hi hij
        exact ordCmp_eq_gt_iff.1 (habove i hi hij)

/-- Witness for C7: a concrete sorted list searched for a present key
and for an absent one. -/
theorem c7_witness :
    (∃ (i : Nat) (h : i < ([1, 3, 5] : List Nat).length),
        binary_search (fun n : Nat => n) [1, 3, 5] 3 = .ok i ∧
          ([1, 3, 5].get ⟨i, h⟩) = 3) ∧
    (∃ j : Nat, binary_search (fun n : Nat => n) [1, 3, 5] 2 = .error j ∧
        j ≤ ([1, 3, 5] : List Nat).length ∧
        (∀ (i : Nat) (h : i < ([1, 3, 5] : List Nat).length), i < j →
          ([1, 3, 5].get ⟨i, h⟩) < 2) ∧
        (∀ (i : Nat) (h : i < ([1, 3, 5] : List Nat).length), j ≤ i →
          2 < ([1, 3, 5].get ⟨i, h⟩))) :=
  ⟨(c7_binary_search_spec Nat Nat (fun n => n) [1, 3, 5] (by decide)).1 3 (by decide),
    (c7_binary_search_spec Nat Nat (fun n => n) [1, 3, 5] (by decide)).2 2 (by decide)⟩

end CargoDeny
